import Mathlib

/-!
Verification development for the legal-anonymizer repository.

The public TypeScript interface (apps/desktop/src/src/api.ts, app.ts, and the
main App component) is embedded directly.  The anonymization engine itself
(conflict resolver, policy evaluator, pseudonym generator, redaction applier,
run orchestrator) is not part of the shipped sources; those components are
modelled from the specification, as marked on each definition.
-/

namespace Anonymizer

/-! ## API-side data model, from apps/desktop/src/src/api.ts -/

/-- From api.ts: type UncertaintyPolicy = "mask" | "redact" | "leave_intact" | "flag_only". -/
inductive UncertaintyPolicy where
  | mask
  | redact
  | leave_intact
  | flag_only
deriving DecidableEq

/-- From api.ts: type PseudonymStyle = "neutral" | "realistic". -/
inductive PseudonymStyle where
  | neutral
  | realistic
deriving DecidableEq

/-- From api.ts: type LanguageMode = "auto" | "fixed". -/
inductive LanguageMode where
  | auto
  | fixed
deriving DecidableEq

/-- From api.ts lines 10-20: the Preset record type.  A TS
Record<string, boolean> is embedded as an association list. -/
structure Preset where
  preset_id : String
  name : String
  layer : Nat
  minimum_confidence : Nat
  uncertainty_policy : UncertaintyPolicy
  pseudonym_style : PseudonymStyle
  language_mode : LanguageMode
  language : Option String
  entities_enabled : List (String × Bool)
deriving DecidableEq

/-- The field names of the Preset type, in declaration order (api.ts lines 10-20). -/
def presetFields : List String :=
  ["preset_id", "name", "layer", "minimum_confidence", "uncertainty_policy",
   "pseudonym_style", "language_mode", "language", "entities_enabled"]

/-- From api.ts lines 127-144: DEFAULT_ENTITIES, in declaration order. -/
def DEFAULT_ENTITIES : List (String × Bool) :=
  [("NATIONAL_ID", true), ("PASSPORT_NUMBER", true), ("MEDICAL_ID", true),
   ("BANK_ACCOUNT", true), ("CREDIT_CARD", true), ("PERSON", true),
   ("DATE_OF_BIRTH", true), ("EMAIL", true), ("PHONE_NUMBER", true),
   ("VEHICLE_ID", true), ("ADDRESS", true), ("IP_ADDRESS", true),
   ("ORGANIZATION", true), ("LOCATION", true), ("ACCOUNT_USERNAME", true),
   ("DATE", false)]

/-- From api.ts lines 146-155: PRESET_LAYER1_FAST. -/
def PRESET_LAYER1_FAST : Preset :=
  { preset_id := "layer1_fast_legal_scrub"
    name := "Layer 1: Fast Legal Scrub"
    layer := 1
    minimum_confidence := 60
    uncertainty_policy := .mask
    pseudonym_style := .neutral
    language_mode := .auto
    language := none
    entities_enabled := DEFAULT_ENTITIES }

/-- From api.ts lines 157-166: PRESET_LAYER2_ACCURATE. -/
def PRESET_LAYER2_ACCURATE : Preset :=
  { preset_id := "layer2_accurate_legal_review"
    name := "Layer 2: Accurate Legal Review"
    layer := 2
    minimum_confidence := 70
    uncertainty_policy := .mask
    pseudonym_style := .neutral
    language_mode := .auto
    language := none
    entities_enabled := DEFAULT_ENTITIES }

/-- From api.ts lines 168-177: PRESET_LAYER3_REGULATORY. -/
def PRESET_LAYER3_REGULATORY : Preset :=
  { preset_id := "layer3_regulatory_standard"
    name := "Layer 3: Regulatory Standard"
    layer := 3
    minimum_confidence := 80
    uncertainty_policy := .redact
    pseudonym_style := .neutral
    language_mode := .auto
    language := none
    entities_enabled := DEFAULT_ENTITIES }

/-- From api.ts lines 179-183: ALL_PRESETS. -/
def ALL_PRESETS : List Preset :=
  [PRESET_LAYER1_FAST, PRESET_LAYER2_ACCURATE, PRESET_LAYER3_REGULATORY]

/-- The fifteen entity kinds other than DATE that DEFAULT_ENTITIES enables. -/
def nonDateEntities : List String :=
  ["NATIONAL_ID", "PASSPORT_NUMBER", "MEDICAL_ID", "BANK_ACCOUNT", "CREDIT_CARD",
   "PERSON", "DATE_OF_BIRTH", "EMAIL", "PHONE_NUMBER", "VEHICLE_ID", "ADDRESS",
   "IP_ADDRESS", "ORGANIZATION", "LOCATION", "ACCOUNT_USERNAME"]

/-- Association-list lookup used to read a TS Record<string, _> field. -/
def recLookup {β : Type} (k : String) : List (String × β) → Option β
  | [] => none
  | (k', v) :: rest => if k' = k then some v else recLookup k rest

/-- From api.ts lines 26-33: the AnalyzeTextResponse record type. -/
structure AnalyzeTextResponse where
  run_id : String
  run_folder : String
  redacted_text : String
  summary : List (String × Nat)
  findings_count : Nat
  language : String

/-- Field names of AnalyzeTextResponse in declaration order (api.ts lines 26-33). -/
def analyzeTextResponseFields : List String :=
  ["run_id", "run_folder", "redacted_text", "summary", "findings_count", "language"]

/-- From api.ts lines 51-57: the AnalyzeFileResponse record type. -/
structure AnalyzeFileResponse where
  run_id : String
  run_folder : String
  output_path : String
  summary : List (String × Nat)
  findings_count : Nat

/-- Field names of AnalyzeFileResponse in declaration order (api.ts lines 51-57). -/
def analyzeFileResponseFields : List String :=
  ["run_id", "run_folder", "output_path", "summary", "findings_count"]

/-- The field set the spec sentence claims for analyze_text
(spec section 6: run_id, redacted_text, summary, findings_count, language). -/
def specAnalyzeTextFields : List String :=
  ["run_id", "redacted_text", "summary", "findings_count", "language"]

/-- The field set the spec sentence claims for analyze_file
(spec section 6: run_id, output_path, summary, findings_count). -/
def specAnalyzeFileFields : List String :=
  ["run_id", "output_path", "summary", "findings_count"]

/-! ## The main App's preset construction, from src/unnamed/part_000 (App.tsx) -/

/-- The preset value getCurrentPreset actually returns: the base Preset fields
spread first, then language fields, entities, and the three term-list fields
added on top (part_000 lines 88-96). -/
structure FullPreset where
  preset_id : String
  name : String
  layer : Nat
  minimum_confidence : Nat
  uncertainty_policy : UncertaintyPolicy
  pseudonym_style : PseudonymStyle
  language_mode : LanguageMode
  language : Option String
  entities_enabled : List (String × Bool)
  whitelist : List String
  blacklist : List String
  language_whitelists : List (String × List String)

/-- Field names of the object literal getCurrentPreset builds. -/
def fullPresetFields : List String :=
  presetFields ++ ["whitelist", "blacklist", "language_whitelists"]

/-- The pieces of App component state that getCurrentPreset reads
(part_000 lines 41-59). -/
structure AppState where
  preset : Preset
  language : String
  entities : List (String × Bool)
  globalWhitelist : String
  globalBlacklist : String
  languageWhitelists : List (String × String)

/-- TS: text.split("\n").filter((s) => s.trim()) — keep the lines whose trim
is non-empty (a non-empty string is truthy). -/
def nonBlankLines (text : String) : List String :=
  (text.splitOn "\n").filter (fun s => s.trim ≠ "")

/-- TS (part_000 lines 82-86): per-language whitelist text split into trimmed
non-empty words; languages with no words are dropped. -/
def langWhitelistsOf (entries : List (String × String)) : List (String × List String) :=
  (entries.map (fun p => (p.1, ((p.2.splitOn "\n").map String.trim).filter (fun s => s ≠ ""))))
    |>.filter (fun p => p.2.length > 0)

/-- From part_000 lines 81-97: getCurrentPreset spreads the selected preset and
adds language fields, the entity toggles, and the whitelist/blacklist/
language_whitelists term lists. -/
def getCurrentPreset (st : AppState) : FullPreset :=
  { preset_id := st.preset.preset_id
    name := st.preset.name
    layer := st.preset.layer
    minimum_confidence := st.preset.minimum_confidence
    uncertainty_policy := st.preset.uncertainty_policy
    pseudonym_style := st.preset.pseudonym_style
    language_mode := if st.language = "auto" then .auto else .fixed
    language := if st.language = "auto" then none else some st.language
    entities_enabled := st.entities
    whitelist := nonBlankLines st.globalWhitelist
    blacklist := nonBlankLines st.globalBlacklist
    language_whitelists := langWhitelistsOf st.languageWhitelists }

/-- From apps/desktop/src/src/app.ts lines 4-30: the defaultPreset value that
this view passes directly to analyzeText (it carries no whitelist or
blacklist, and enables DATE). -/
def appDefaultPreset : Preset :=
  { preset_id := "layer1_fast_legal_scrub"
    name := "Fast Legal Scrub (Layer 1)"
    layer := 1
    minimum_confidence := 60
    uncertainty_policy := .mask
    pseudonym_style := .neutral
    language_mode := .auto
    language := none
    entities_enabled :=
      [("NATIONAL_ID", true), ("PASSPORT_NUMBER", true), ("MEDICAL_ID", true),
       ("BANK_ACCOUNT", true), ("CREDIT_CARD", true), ("PERSON", true),
       ("DATE_OF_BIRTH", true), ("EMAIL", true), ("PHONE_NUMBER", true),
       ("VEHICLE_ID", true), ("ADDRESS", true), ("IP_ADDRESS", true),
       ("ORGANIZATION", true), ("LOCATION", true), ("ACCOUNT_USERNAME", true),
       ("DATE", true)] }

/-! ## Engine data model.

The anonymization engine is not part of the shipped sources; every
definition below is modelled from the specification (spec sections 3-4 and
the design document's entity taxonomy).  Text is represented as `List Char`
so that all operations are structurally recursive and kernel-evaluable. -/

/-- Modelled from the spec: the action set of the Policy Evaluator
(spec 4.2), ordered from weakest to strongest protection. -/
inductive Action where
  | leave_intact
  | mask
  | pseudonymise
  | redact
deriving DecidableEq, Fintype

/-- Modelled from the spec: numeric strength of an action, used for the
escalation-only ordering (mask -> pseudonymise -> redact, spec's
escalation rules). -/
def Action.rank : Action → Nat
  | .leave_intact => 0
  | .mask => 1
  | .pseudonymise => 2
  | .redact => 3

/-- Modelled from the spec: an action is at least as strong as another. -/
def actionLE (a b : Action) : Prop := a.rank ≤ b.rank

instance : DecidableRel actionLE := fun a b => inferInstanceAs (Decidable (a.rank ≤ b.rank))

/-- Modelled from the spec: the stronger of two actions; used where an
action must "never be weaker than" a floor (spec 4.2 step 1). -/
def maxAction (a b : Action) : Action := if a.rank ≤ b.rank then b else a

/-- Modelled from the spec: the closed set of entity kinds of the design
document's entity taxonomy (priorities 100 down to 20). -/
inductive EntityKind where
  | NATIONAL_ID
  | PASSPORT_NUMBER
  | MEDICAL_ID
  | BANK_ACCOUNT
  | CREDIT_CARD
  | PERSON
  | DATE_OF_BIRTH
  | EMAIL
  | PHONE_NUMBER
  | VEHICLE_ID
  | ADDRESS
  | IP_ADDRESS
  | ORGANIZATION
  | LOCATION
  | ACCOUNT_USERNAME
  | DATE
  | NUMBER
deriving DecidableEq, Fintype

/-- Modelled from the spec: the static Entity Priority Table (design
document: 100 always-redact identifiers, 90 financial, 80 personal,
70 address-like, 60 contextual, 40 DATE, 20 NUMBER). -/
def entityPriority : EntityKind → Nat
  | .NATIONAL_ID => 100
  | .PASSPORT_NUMBER => 100
  | .MEDICAL_ID => 100
  | .BANK_ACCOUNT => 90
  | .CREDIT_CARD => 90
  | .PERSON => 80
  | .DATE_OF_BIRTH => 80
  | .EMAIL => 80
  | .PHONE_NUMBER => 80
  | .VEHICLE_ID => 80
  | .ADDRESS => 70
  | .IP_ADDRESS => 70
  | .ORGANIZATION => 60
  | .LOCATION => 60
  | .ACCOUNT_USERNAME => 60
  | .DATE => 40
  | .NUMBER => 20

/-- Modelled from the spec: the priority floor (glossary: the
minimum-strength action mandated for an entity kind regardless of preset):
priority >= 90 entities permit only redact, priority 80 entities default to
pseudonymise; below that no floor applies. -/
def floorAction (e : EntityKind) : Action :=
  if entityPriority e ≥ 90 then .redact
  else if entityPriority e ≥ 80 then .pseudonymise
  else .leave_intact

/-- Modelled from the spec: a text span in normalized-text offsets
(spec 3, Finding).  The end offset is called stop because end is a
Lean keyword. -/
structure Span where
  start : Nat
  stop : Nat
deriving DecidableEq

/-- Modelled from the spec: overlap is non-empty intersection of spans
(spec 4.1). -/
def spanOverlap (a b : Span) : Prop := a.start < b.stop ∧ b.start < a.stop

instance : DecidableRel spanOverlap := fun a b =>
  inferInstanceAs (Decidable (a.start < b.stop ∧ b.start < a.stop))

/-- Modelled from the spec: the canonical candidate-detection value type
(spec 3, Finding). -/
structure Finding where
  id : Nat
  entity : EntityKind
  span : Span
  detected_text : List Char
  detection_source : List Char
  model_id : Option (List Char)
  confidence : Nat
  context_snippet : List Char
deriving DecidableEq

/-- Modelled from the spec: the span length of a finding. -/
def spanLen (f : Finding) : Nat := f.span.stop - f.span.start

/-- Modelled from the spec: the frozen engine-side preset snapshot a run
references (spec 3, Preset): per-entity configured actions and enablement,
minimum_confidence, uncertainty_policy, pseudonym_style, whitelist and
blacklist term sets, and the detection-source precedence list (spec 4.1
rule 3). -/
structure EnginePreset where
  minimum_confidence : Nat
  uncertainty_policy : Action
  pseudonym_style : PseudonymStyle
  configured : EntityKind → Action
  entity_enabled : EntityKind → Bool
  whitelist : List (List Char)
  blacklist : List (List Char)
  source_precedence : List (List Char)

/-- Modelled from the spec: a preset is valid when every configured action
is at least as strong as the entity's priority floor; preset construction
rejects anything else before a run starts (spec 3 EntityPolicy invariant
and 4.2 escalation-only invariant). -/
def ValidPreset (p : EnginePreset) : Prop :=
  ∀ e : EntityKind, actionLE (floorAction e) (p.configured e)

instance (p : EnginePreset) : Decidable (ValidPreset p) :=
  decidable_of_iff (∀ e : EntityKind, actionLE (floorAction e) (p.configured e)) Iff.rfl

/-- Index of a value in a list, with the list length for absent values;
used for the detection-source precedence rank (spec 4.1 rule 3: earliest
in the preset's source-precedence list wins). -/
def idxOfD {α : Type} [DecidableEq α] (a : α) : List α → Nat
  | [] => 0
  | b :: l => if b = a then 0 else idxOfD a l + 1

/-- Modelled from the spec: precedence rank of a finding's detection source. -/
def srcIdx (p : EnginePreset) (f : Finding) : Nat :=
  idxOfD f.detection_source p.source_precedence

/-! ## Conflict Resolver (spec 4.1), modelled from the spec. -/

/-- Canonical input order for the resolver: by span start, then span stop,
then finding id.  Sorting raw findings into this order first is what makes
the resolver independent of input iteration order (spec 4.1 guarantee). -/
def canonLE (a b : Finding) : Bool :=
  if a.span.start ≠ b.span.start then a.span.start < b.span.start
  else if a.span.stop ≠ b.span.stop then a.span.stop < b.span.stop
  else a.id ≤ b.id

/-- The canonical order as a relation. -/
def canonR (a b : Finding) : Prop := canonLE a b = true

instance : DecidableRel canonR := fun a b => inferInstanceAs (Decidable (canonLE a b = true))

theorem canonLE_iff (a b : Finding) : canonLE a b = true ↔
    (a.span.start < b.span.start ∨
      (a.span.start = b.span.start ∧ (a.span.stop < b.span.stop ∨
        (a.span.stop = b.span.stop ∧ a.id ≤ b.id)))) := by
  unfold canonLE
  split_ifs <;> simp <;> omega

instance : IsTotal Finding canonR := by
  constructor
  intro a b
  simp only [canonR, canonLE_iff]
  omega

instance : IsTrans Finding canonR := by
  constructor
  intro a b c
  simp only [canonR, canonLE_iff]
  omega

/-- Modelled from the spec: 4.1 winner ordering inside a cluster, in order:
highest priority, then highest confidence, then earliest source in the
preset's precedence list, then earliest span start, then shortest span.
`better p a b` holds when a strictly precedes b in that order. -/
def better (p : EnginePreset) (a b : Finding) : Bool :=
  if entityPriority a.entity ≠ entityPriority b.entity then
    entityPriority b.entity < entityPriority a.entity
  else if a.confidence ≠ b.confidence then b.confidence < a.confidence
  else if srcIdx p a ≠ srcIdx p b then srcIdx p a < srcIdx p b
  else if a.span.start ≠ b.span.start then a.span.start < b.span.start
  else spanLen a < spanLen b

theorem better_iff (p : EnginePreset) (a b : Finding) : better p a b = true ↔
    (entityPriority b.entity < entityPriority a.entity ∨
      (entityPriority a.entity = entityPriority b.entity ∧
        (b.confidence < a.confidence ∨ (a.confidence = b.confidence ∧
          (srcIdx p a < srcIdx p b ∨ (srcIdx p a = srcIdx p b ∧
            (a.span.start < b.span.start ∨ (a.span.start = b.span.start ∧
              spanLen a < spanLen b)))))))) := by
  unfold better
  split_ifs <;> simp <;> omega

theorem better_irrefl (p : EnginePreset) (a : Finding) : better p a a = false := by
  rw [← Bool.not_eq_true, better_iff]
  omega

theorem better_trans (p : EnginePreset) {a b c : Finding} (h1 : better p a b = true)
    (h2 : better p b c = true) : better p a c = true := by
  rw [better_iff] at h1 h2 ⊢
  omega

theorem not_better_trans (p : EnginePreset) {a b c : Finding} (h1 : better p a b = false)
    (h2 : better p b c = false) : better p a c = false := by
  rw [← Bool.not_eq_true, better_iff] at h1 h2 ⊢
  omega

/-- Modelled from the spec: select the single winner of a cluster by keeping
the best finding under the 4.1 ordering, scanning in canonical order. -/
def pickWinner (p : EnginePreset) (f : Finding) : List Finding → Finding
  | [] => f
  | g :: rest => pickWinner p (if better p g f then g else f) rest

/-- Modelled from the spec: group span-overlapping findings into clusters
(interval-graph connected components) by a left-to-right sweep over the
findings in canonical (start-ascending) order; `m` is the largest stop seen
in the open cluster `cur`. -/
def clusterGo (cur : List Finding) (m : Nat) : List Finding → List (List Finding)
  | [] => [cur]
  | g :: rest =>
    if g.span.start < m then clusterGo (cur ++ [g]) (max m g.span.stop) rest
    else cur :: clusterGo [g] g.span.stop rest

/-- Modelled from the spec: overlap clusters of a start-sorted finding list. -/
def clusterSorted : List Finding → List (List Finding)
  | [] => []
  | f :: rest => clusterGo [f] f.span.stop rest

/-- Modelled from the spec: why a finding was suppressed (spec 4.1: losing
cluster candidates, and findings whose entity kind is disabled in the
preset). -/
inductive SuppressReason where
  | overlap
  | entity_disabled
deriving DecidableEq

/-- Modelled from the spec: a suppressed finding retained for audit, tagged
with the winner's id as superseded_by when it lost an overlap cluster. -/
structure Suppressed where
  finding : Finding
  reason : SuppressReason
  superseded_by : Option Nat
deriving DecidableEq

/-- Modelled from the spec: the resolver's two output partitions
(spec 4.1 contract). -/
structure ResolveResult where
  resolved : List Finding
  suppressed : List Suppressed
deriving DecidableEq

/-- Winner of one cluster, none for an empty cluster (clusters are never
empty by construction). -/
def clusterWinner (p : EnginePreset) : List Finding → Option Finding
  | [] => none
  | f :: rest => some (pickWinner p f rest)

/-- The losing members of one cluster, each tagged with the winner's id. -/
def clusterLosers (p : EnginePreset) : List Finding → List Suppressed
  | [] => []
  | f :: rest =>
    ((f :: rest).erase (pickWinner p f rest)).map
      (fun x => ⟨x, .overlap, some (pickWinner p f rest).id⟩)

/-- Modelled from the spec: the Conflict Resolver (spec 4.1).  The raw
findings are first put into canonical order, findings with disabled entity
kinds are recorded as suppressed with reason entity_disabled, the rest are
grouped into overlap clusters, and each cluster contributes its single
winner to `resolved` and its other members to `suppressed` tagged with the
winner's id. -/
def resolve (p : EnginePreset) (fs : List Finding) : ResolveResult :=
  let sorted := fs.insertionSort canonR
  let enabled := sorted.filter (fun f => p.entity_enabled f.entity)
  let disabled := sorted.filter (fun f => !(p.entity_enabled f.entity))
  let cs := clusterSorted enabled
  { resolved := cs.filterMap (clusterWinner p)
    suppressed := disabled.map (fun f => ⟨f, .entity_disabled, none⟩)
      ++ (cs.map (clusterLosers p)).flatten }

/-! ## Policy Evaluator (spec 4.2), modelled from the spec. -/

/-- ASCII lowercase of one character. -/
def lowerChar (c : Char) : Char :=
  if 'A' ≤ c ∧ c ≤ 'Z' then Char.ofNat (c.toNat + 32) else c

/-- Modelled from the spec: case folding for whitelist matching and the
pseudonym normalization key. -/
def lowerChars (s : List Char) : List Char := s.map lowerChar

/-- Whitespace test used by trimming. -/
def isWS (c : Char) : Bool := c = ' ' || c = '\t' || c = '\n' || c = '\r'

/-- Modelled from the spec: trim leading and trailing whitespace
(pseudonym normalization key, spec 4.3). -/
def trimChars (s : List Char) : List Char :=
  ((s.dropWhile isWS).reverse.dropWhile isWS).reverse

/-- Modelled from the spec: case-insensitive exact-term whitelist match on
detected_text (spec 4.2 step 3). -/
def wlMatch (p : EnginePreset) (f : Finding) : Bool :=
  p.whitelist.any (fun w => lowerChars w = lowerChars f.detected_text)

/-- Modelled from the spec: blacklist match on detected_text
(spec 4.2 step 4). -/
def blMatch (p : EnginePreset) (f : Finding) : Bool :=
  p.blacklist.any (fun w => lowerChars w = lowerChars f.detected_text)

/-- Modelled from the spec: the Policy Evaluator (spec 4.2).  Low-confidence
findings get the preset's uncertainty_policy raised to the entity's
priority floor and the uncertainty flag; otherwise the configured action
applies; a whitelist match then forces leave_intact unless the entity
priority is >= 90; a blacklist match finally forces redact.  Returns the
final action and the uncertainty flag. -/
def evaluateFinding (p : EnginePreset) (f : Finding) : Action × Bool :=
  let base :=
    if f.confidence < p.minimum_confidence then
      maxAction p.uncertainty_policy (floorAction f.entity)
    else p.configured f.entity
  let afterWl :=
    if wlMatch p f ∧ entityPriority f.entity < 90 then Action.leave_intact else base
  let final := if blMatch p f then Action.redact else afterWl
  (final, f.confidence < p.minimum_confidence)

/-! ## Pseudonym Generator (spec 4.3), modelled from the spec. -/

/-- Modelled from the spec: the normalization key
(entity_kind, trim(lowercase(detected_text))) (spec 4.3). -/
def normKey (f : Finding) : EntityKind × List Char :=
  (f.entity, trimChars (lowerChars f.detected_text))

/-- Decimal digit character. -/
def digitChar (d : Nat) : Char := Char.ofNat (48 + d)

/-- Modelled from the spec: three-digit zero-padded sequence number, as in
PERSON_001 (spec 4.3). -/
def pad3 (n : Nat) : List Char :=
  [digitChar (n / 100 % 10), digitChar (n / 10 % 10), digitChar (n % 10)]

/-- Upper-case name of an entity kind, the token prefix of spec 4.3. -/
def kindChars (e : EntityKind) : List Char :=
  (match e with
    | .NATIONAL_ID => "NATIONAL_ID"
    | .PASSPORT_NUMBER => "PASSPORT_NUMBER"
    | .MEDICAL_ID => "MEDICAL_ID"
    | .BANK_ACCOUNT => "BANK_ACCOUNT"
    | .CREDIT_CARD => "CREDIT_CARD"
    | .PERSON => "PERSON"
    | .DATE_OF_BIRTH => "DATE_OF_BIRTH"
    | .EMAIL => "EMAIL"
    | .PHONE_NUMBER => "PHONE_NUMBER"
    | .VEHICLE_ID => "VEHICLE_ID"
    | .ADDRESS => "ADDRESS"
    | .IP_ADDRESS => "IP_ADDRESS"
    | .ORGANIZATION => "ORGANIZATION"
    | .LOCATION => "LOCATION"
    | .ACCOUNT_USERNAME => "ACCOUNT_USERNAME"
    | .DATE => "DATE"
    | .NUMBER => "NUMBER").toList

/-- Modelled from the spec: the neutral replacement token for the n-th key
of an entity kind (PERSON_001, PERSON_002, ...). -/
def pseudoToken (e : EntityKind) (n : Nat) : List Char :=
  kindChars e ++ '_' :: pad3 n

/-- The per-run pseudonym map: normalization key to allocated token, in
allocation order (spec 3, PseudonymMap). -/
abbrev PseudoState : Type := List ((EntityKind × List Char) × List Char)

/-- Lookup of a normalization key in the pseudonym map. -/
def pseudoLookup (k : EntityKind × List Char) (st : PseudoState) : Option (List Char) :=
  (st.find? (fun kv => kv.1 = k)).map (fun kv => kv.2)

/-- Number of keys of one entity kind already allocated. -/
def kindCount (e : EntityKind) (st : PseudoState) : Nat :=
  (st.filter (fun kv => kv.1.1 = e)).length

/-- Modelled from the spec: the Pseudonym Generator step (spec 4.3).  The
first occurrence of a key allocates the next sequence number for its entity
kind (one more than the number already allocated, so numbering starts
at 1); later occurrences reuse the stored token. -/
def pgen (st : PseudoState) (f : Finding) : List Char × PseudoState :=
  match pseudoLookup (normKey f) st with
  | some tok => (tok, st)
  | none =>
    let n := kindCount f.entity st + 1
    let tok := pseudoToken f.entity n
    (tok, st ++ [(normKey f, tok)])

/-- Modelled from the spec: run the generator over a list of findings,
returning the token of each finding in order and the final map. -/
def pgenAll (st : PseudoState) : List Finding → List (List Char) × PseudoState
  | [] => ([], st)
  | f :: rest =>
    let r := pgen st f
    let rs := pgenAll r.2 rest
    (r.1 :: rs.1, rs.2)

/-! ## Redaction Applier (spec 4.4), modelled from the spec. -/

/-- Modelled from the spec: one resolved finding with its final action and
(for pseudonymise) its allocated token, as handed to the applier. -/
structure EvalItem where
  span : Span
  action : Action
  token : List Char
deriving DecidableEq

/-- Modelled from the spec: the fixed block character of redact
substitutions (spec 4.4). -/
def blockChar : Char := '█'

/-- Modelled from the spec: format-preserving partial obfuscation for mask —
the first and last characters stay visible and the middle is obscured
(spec 4.4); it always preserves length. -/
def maskChars (s : List Char) : List Char :=
  match s with
  | [] => []
  | [c] => [c]
  | c :: rest => c :: (List.replicate (rest.length - 1) '*' ++ [rest.getLastD '*'])

/-- Modelled from the spec: the substitution each action performs on the
original span slice (spec 4.4): redact puts a block-character run of the
span's length, pseudonymise puts the token, mask obfuscates the middle,
leave_intact copies the slice. -/
def defaultSubst (it : EvalItem) (slice : List Char) : List Char :=
  match it.action with
  | .redact => List.replicate (it.span.stop - it.span.start) blockChar
  | .pseudonymise => it.token
  | .mask => maskChars slice
  | .leave_intact => slice

/-- The slice of the original text covered by a span. -/
def sliceOf (text : List Char) (sp : Span) : List Char :=
  (text.drop sp.start).take (sp.stop - sp.start)

/-- Modelled from the spec: the single left-to-right rewriting pass
(spec 4.4): copy the text between the cursor and the next span verbatim,
emit the substitution for the span's slice, continue after the span. -/
def applyGo (subst : EvalItem → List Char → List Char) (text : List Char)
    (cursor : Nat) : List EvalItem → List Char
  | [] => text.drop cursor
  | it :: rest =>
    (text.drop cursor).take (it.span.start - cursor)
      ++ subst it (sliceOf text it.span)
      ++ applyGo subst text it.span.stop rest

/-- Start-ascending order on evaluated items (spec 4.4: sort resolved
findings by span start ascending). -/
def itemR (a b : EvalItem) : Prop := a.span.start ≤ b.span.start

instance : DecidableRel itemR := fun a b => inferInstanceAs (Decidable (a.span.start ≤ b.span.start))

instance : IsTotal EvalItem itemR := ⟨fun a b => Nat.le_total a.span.start b.span.start⟩

instance : IsTrans EvalItem itemR := ⟨fun _ _ _ h1 h2 => Nat.le_trans h1 h2⟩

/-- Modelled from the spec: the Redaction Applier (spec 4.4): sort the
items by span start ascending, then rewrite in one pass. -/
def applyRedactions (subst : EvalItem → List Char → List Char) (text : List Char)
    (items : List EvalItem) : List Char :=
  applyGo subst text 0 (items.insertionSort itemR)

/-! ## Run pipeline (spec 2 data flow), modelled from the spec. -/

/-- Modelled from the spec: the per-run result the orchestrator assembles
(spec 3, RunRecord, without the externally supplied run_id). -/
structure EngineRun where
  redacted_text : List Char
  pseudonym_map : PseudoState
  resolved : List Finding
  suppressed : List Suppressed
deriving DecidableEq

/-- Attach tokens: run the pseudonym generator over the evaluated findings,
allocating a token only where the action is pseudonymise. -/
def assignTokens (st : PseudoState) : List (Finding × Action) → List EvalItem × PseudoState
  | [] => ([], st)
  | (f, a) :: rest =>
    if a = .pseudonymise then
      let r := pgen st f
      let rs := assignTokens r.2 rest
      (⟨f.span, a, r.1⟩ :: rs.1, rs.2)
    else
      let rs := assignTokens st rest
      (⟨f.span, a, []⟩ :: rs.1, rs.2)

/-- Modelled from the spec: the whole pipeline over one document (spec 2):
raw findings through the Conflict Resolver, the Policy Evaluator, the
Pseudonym Generator and the Redaction Applier, producing the redacted text
and the run-scoped pseudonym map. -/
def runEngine (p : EnginePreset) (text : List Char) (raw : List Finding) : EngineRun :=
  let r := resolve p raw
  let evaluated := r.resolved.map (fun f => (f, (evaluateFinding p f).1))
  let items := assignTokens [] evaluated
  { redacted_text := applyRedactions defaultSubst text items.1
    pseudonym_map := items.2
    resolved := r.resolved
    suppressed := r.suppressed }

/-! ## Resolver lemmas -/

/-- Two clusters are separated when every member of the first ends no later
than every member of the second starts. -/
def Sep (c d : List Finding) : Prop :=
  ∀ a ∈ c, ∀ b ∈ d, a.span.stop ≤ b.span.start

theorem clusterGo_flatten (l : List Finding) : ∀ cur m,
    (clusterGo cur m l).flatten = cur ++ l := by
  induction l with
  | nil => intro cur m; simp [clusterGo]
  | cons g rest ih =>
    intro cur m
    unfold clusterGo
    split
    · rw [ih]; simp
    · simp only [List.flatten_cons, ih]; simp

theorem clusterGo_ne_nil (l : List Finding) : ∀ cur m, cur ≠ [] →
    ∀ c ∈ clusterGo cur m l, c ≠ [] := by
  induction l with
  | nil => intro cur m hcur c hc; simp [clusterGo] at hc; simpa [hc] using hcur
  | cons g rest ih =>
    intro cur m hcur c hc
    unfold clusterGo at hc
    split at hc
    · exact ih _ _ (by simp) c hc
    · rcases List.mem_cons.mp hc with h | h
      · simpa [h] using hcur
      · exact ih _ _ (by simp) c h

theorem clusterGo_sep (l : List Finding) : ∀ cur m,
    (∀ x ∈ cur, x.span.stop ≤ m) →
    l.Pairwise (fun a b => a.span.start ≤ b.span.start) →
    (clusterGo cur m l).Pairwise Sep := by
  induction l with
  | nil => intro cur m _ _; simp [clusterGo]
  | cons g rest ih =>
    intro cur m hm hp
    unfold clusterGo
    split
    · apply ih
      · intro x hx
        rcases List.mem_append.mp hx with h | h
        · exact le_trans (hm x h) (le_max_left _ _)
        · simp at h; subst h; exact le_max_right _ _
      · exact hp.of_cons
    · rename_i hgm
      have hg : m ≤ g.span.start := by omega
      constructor
      · intro d hd a ha b hb
        have hbf : b ∈ (clusterGo [g] g.span.stop rest).flatten :=
          List.mem_flatten.mpr ⟨d, hd, hb⟩
        rw [clusterGo_flatten] at hbf
        have hstop : b.span.start ≥ g.span.start := by
          rcases List.mem_cons.mp (by simpa using hbf) with h | h
          · simp [h]
          · exact (List.pairwise_cons.mp hp).1 b h
        have := hm a ha
        omega
      · exact ih [g] g.span.stop (by simp) hp.of_cons

theorem clusterSorted_flatten (l : List Finding) : (clusterSorted l).flatten = l := by
  cases l with
  | nil => simp [clusterSorted]
  | cons f rest => simpa using clusterGo_flatten rest [f] f.span.stop

theorem clusterSorted_ne_nil (l : List Finding) : ∀ c ∈ clusterSorted l, c ≠ [] := by
  cases l with
  | nil => simp [clusterSorted]
  | cons f rest => exact clusterGo_ne_nil rest [f] f.span.stop (by simp)

theorem clusterSorted_sep (l : List Finding)
    (hp : l.Pairwise (fun a b => a.span.start ≤ b.span.start)) :
    (clusterSorted l).Pairwise Sep := by
  cases l with
  | nil => simp [clusterSorted]
  | cons f rest =>
    exact clusterGo_sep rest [f] f.span.stop (by simp) (List.pairwise_cons.mp hp).2

theorem pickWinner_mem (p : EnginePreset) (l : List Finding) : ∀ f,
    pickWinner p f l ∈ f :: l := by
  induction l with
  | nil => intro f; simp [pickWinner]
  | cons g rest ih =>
    intro f
    unfold pickWinner
    have := ih (if better p g f then g else f)
    rcases List.mem_cons.mp this with h | h
    · rw [h]
      split <;> simp
    · simp [h]

theorem pickWinner_max (p : EnginePreset) (l : List Finding) : ∀ f, ∀ x ∈ f :: l,
    better p x (pickWinner p f l) = false := by
  induction l with
  | nil =>
    intro f x hx
    simp at hx
    simp [pickWinner, hx, better_irrefl]
  | cons g rest ih =>
    intro f x hx
    rw [show pickWinner p f (g :: rest) = pickWinner p (if better p g f then g else f) rest
      from rfl]
    by_cases hgf : better p g f = true
    · rw [if_pos hgf]
      rcases List.mem_cons.mp hx with hxf | hx'
      · rcases Bool.eq_false_or_eq_true (better p x (pickWinner p g rest)) with h | h
        · have hgW : better p g (pickWinner p g rest) = false := ih g g (by simp)
          rw [← hxf] at hgf
          have hcontra := better_trans p hgf h
          rw [hcontra] at hgW
          cases hgW
        · exact h
      · exact ih g x hx'
    · rw [if_neg hgf]
      rcases List.mem_cons.mp hx with hxf | hx'
      · rw [hxf]
        exact ih f f (by simp)
      · rcases List.mem_cons.mp hx' with hxg | hxr
        · rw [hxg]
          exact not_better_trans p (Bool.eq_false_iff.mpr hgf) (ih f f (by simp))
        · exact ih f x (by simp [hxr])

theorem clusterWinner_mem {p : EnginePreset} {c : List Finding} {w : Finding}
    (h : clusterWinner p c = some w) : w ∈ c := by
  cases c with
  | nil => cases h
  | cons f rest =>
    simp only [clusterWinner, Option.some.injEq] at h
    rw [← h]
    exact pickWinner_mem p rest f

theorem count_clusters (p : EnginePreset) (cs : List (List Finding))
    (h : ∀ c ∈ cs, c ≠ []) :
    (cs.filterMap (clusterWinner p)).length + ((cs.map (clusterLosers p)).flatten).length
      = cs.flatten.length := by
  induction cs with
  | nil => simp
  | cons c cs' ih =>
    have hc : c ≠ [] := h c (by simp)
    have ih' := ih (fun d hd => h d (by simp [hd]))
    cases c with
    | nil => exact absurd rfl hc
    | cons f rest =>
      have hw : pickWinner p f rest ∈ f :: rest := pickWinner_mem p rest f
      have herase : ((f :: rest).erase (pickWinner p f rest)).length
          = (f :: rest).length - 1 := List.length_erase_of_mem hw
      simp only [List.filterMap_cons, clusterWinner, List.map_cons, List.flatten_cons,
        List.length_append, List.length_cons, clusterLosers, List.length_map]
      rw [herase]
      simp only [List.length_cons]
      omega

theorem sorted_canon (fs : List Finding) :
    (fs.insertionSort canonR).Pairwise canonR :=
  List.sorted_insertionSort canonR fs

theorem sorted_start (fs : List Finding) :
    (fs.insertionSort canonR).Pairwise (fun a b => a.span.start ≤ b.span.start) := by
  refine (sorted_canon fs).imp ?_
  intro a b hab
  rw [canonR, canonLE_iff] at hab
  omega

theorem resolve_resolved (p : EnginePreset) (fs : List Finding) :
    (resolve p fs).resolved =
      (clusterSorted ((fs.insertionSort canonR).filter
        (fun f => p.entity_enabled f.entity))).filterMap (clusterWinner p) := rfl

theorem resolve_suppressed (p : EnginePreset) (fs : List Finding) :
    (resolve p fs).suppressed =
      ((fs.insertionSort canonR).filter (fun f => !(p.entity_enabled f.entity))).map
        (fun f => ⟨f, .entity_disabled, none⟩)
      ++ ((clusterSorted ((fs.insertionSort canonR).filter
            (fun f => p.entity_enabled f.entity))).map (clusterLosers p)).flatten := rfl

/-- C3: For every run, the conflict resolver partitions its input without
data loss: |resolved| + |suppressed| = |raw findings|, the resolved findings
have pairwise non-overlapping spans (overlap = non-empty span intersection),
and every suppressed cluster member carries the winning (resolved) finding's
id in its superseded_by field. -/
theorem resolver_partitions_without_loss (p : EnginePreset) (fs : List Finding) :
    (resolve p fs).resolved.length + (resolve p fs).suppressed.length = fs.length ∧
    (resolve p fs).resolved.Pairwise (fun a b => ¬ spanOverlap a.span b.span) ∧
    (∀ s ∈ (resolve p fs).suppressed, s.reason = .overlap →
      ∃ w ∈ (resolve p fs).resolved, s.superseded_by = some w.id) := by
  have hsortlen : (fs.insertionSort canonR).length = fs.length :=
    (List.perm_insertionSort canonR fs).length_eq
  have henabled_pairwise :
      ((fs.insertionSort canonR).filter (fun f => p.entity_enabled f.entity)).Pairwise
        (fun a b => a.span.start ≤ b.span.start) :=
    (sorted_start fs).filter _
  have hne := clusterSorted_ne_nil
    ((fs.insertionSort canonR).filter (fun f => p.entity_enabled f.entity))
  have hflat := clusterSorted_flatten
    ((fs.insertionSort canonR).filter (fun f => p.entity_enabled f.entity))
  refine ⟨?_, ?_, ?_⟩
  · rw [resolve_resolved, resolve_suppressed]
    have hkey := count_clusters p
      (clusterSorted ((fs.insertionSort canonR).filter (fun f => p.entity_enabled f.entity)))
      hne
    rw [hflat] at hkey
    have hpart := (List.length_eq_length_filter_add
      (l := fs.insertionSort canonR) (fun f => p.entity_enabled f.entity)).symm
    simp only [List.length_append, List.length_map]
    omega
  · rw [resolve_resolved]
    have hsep := clusterSorted_sep _ henabled_pairwise
    refine List.Pairwise.filterMap (clusterWinner p) ?_ hsep
    intro c c' hcc' w hw w' hw'
    have hwc := clusterWinner_mem hw
    have hwc' := clusterWinner_mem hw'
    have := hcc' w hwc w' hwc'
    rw [spanOverlap]
    omega
  · rw [resolve_suppressed, resolve_resolved]
    intro s hs hreason
    rcases List.mem_append.mp hs with hdis | hlos
    · rcases List.mem_map.mp hdis with ⟨f, _, hf⟩
      rw [← hf] at hreason
      cases hreason
    · rcases List.mem_flatten.mp hlos with ⟨ls, hls, hsls⟩
      rcases List.mem_map.mp hls with ⟨c, hc, hcls⟩
      cases c with
      | nil => rw [← hcls] at hsls; cases hsls
      | cons f rest =>
        rw [← hcls] at hsls
        simp only [clusterLosers, List.mem_map] at hsls
        rcases hsls with ⟨x, _, hx⟩
        refine ⟨pickWinner p f rest, ?_, ?_⟩
        · exact List.mem_filterMap.mpr ⟨f :: rest, hc, rfl⟩
        · rw [← hx]

/-! ## Scenario A inputs (spec section 8) -/

/-- A representative valid preset for the spec's test scenarios: the design
document's default action per priority band, every entity enabled, no term
lists, pattern detection before NLP in the precedence list. -/
def scenarioPreset : EnginePreset :=
  { minimum_confidence := 60
    uncertainty_policy := .mask
    pseudonym_style := .neutral
    configured := fun e =>
      if entityPriority e ≥ 90 then .redact
      else if entityPriority e ≥ 80 then .pseudonymise
      else if entityPriority e ≥ 70 then .redact
      else .pseudonymise
    entity_enabled := fun _ => true
    whitelist := []
    blacklist := []
    source_precedence := ["pattern".toList, "spacy".toList] }

/-- Scenario A: the NATIONAL_ID finding at span (0,9) with confidence 95. -/
def findingNationalId : Finding :=
  { id := 1, entity := .NATIONAL_ID, span := ⟨0, 9⟩
    detected_text := "123456789".toList
    detection_source := "pattern".toList, model_id := none, confidence := 95
    context_snippet := [] }

/-- Scenario A: the NUMBER finding at the identical span with confidence 99. -/
def findingNumber : Finding :=
  { id := 2, entity := .NUMBER, span := ⟨0, 9⟩
    detected_text := "123456789".toList
    detection_source := "pattern".toList, model_id := none, confidence := 99
    context_snippet := [] }

/-- C4: Within every cluster the resolver selects a single winner that no
other member beats under the ordering (priority, then confidence, then
source precedence, then earliest start, then shortest span); and on
Scenario A's raw findings NATIONAL_ID is resolved with final action redact
while NUMBER is suppressed with superseded_by = the NATIONAL_ID finding's
id. -/
theorem cluster_winner_rule_and_scenarioA :
    (∀ (p : EnginePreset) (f : Finding) (l : List Finding), ∀ x ∈ f :: l,
      better p x (pickWinner p f l) = false) ∧
    resolve scenarioPreset [findingNationalId, findingNumber] =
      ⟨[findingNationalId], [⟨findingNumber, .overlap, some findingNationalId.id⟩]⟩ ∧
    (evaluateFinding scenarioPreset findingNationalId).1 = .redact := by
  refine ⟨?_, by decide, by decide⟩
  intro p f l x hx
  exact pickWinner_max p l f x hx

/-- Witness for C4 at concrete inputs: on Scenario A's cluster the losing
NUMBER finding indeed does not beat the selected winner. -/
theorem cluster_winner_rule_and_scenarioA_witness :
    better scenarioPreset findingNumber
      (pickWinner scenarioPreset findingNationalId [findingNumber]) = false :=
  cluster_winner_rule_and_scenarioA.1 scenarioPreset findingNationalId
    [findingNumber] findingNumber (by simp)

/-! ## Resolver idempotence and order-independence (C5) -/

theorem sorted_eq_of_perm {α : Type} {r : α → α → Prop} :
    ∀ {l₁ l₂ : List α}, l₁.Perm l₂ → l₁.Pairwise r → l₂.Pairwise r →
    (∀ a ∈ l₁, ∀ b ∈ l₁, r a b → r b a → a = b) → l₁ = l₂ := by
  intro l₁
  induction l₁ with
  | nil =>
    intro l₂ hperm _ _ _
    exact (hperm.symm.eq_nil).symm
  | cons a t₁ ih =>
    intro l₂ hperm hs₁ hs₂ hanti
    cases l₂ with
    | nil => exact absurd hperm.eq_nil (by simp)
    | cons b t₂ =>
      have hab : a = b := by
        have ha2 : a ∈ b :: t₂ := hperm.subset (by simp)
        have hb1 : b ∈ a :: t₁ := hperm.symm.subset (by simp)
        rcases List.mem_cons.mp ha2 with h | h
        · exact h
        · rcases List.mem_cons.mp hb1 with h' | h'
          · exact h'.symm
          · have hrab : r a b := (List.pairwise_cons.mp hs₁).1 b h'
            have hrba : r b a := (List.pairwise_cons.mp hs₂).1 a h
            exact hanti a (by simp) b (by simp [h']) hrab hrba
      subst hab
      have htail : t₁.Perm t₂ := hperm.cons_inv
      have := ih htail (List.pairwise_cons.mp hs₁).2 (List.pairwise_cons.mp hs₂).2
        (fun x hx y hy => hanti x (by simp [hx]) y (by simp [hy]))
      rw [this]

theorem insertionSort_canon_eq {fs fs' : List Finding} (hperm : fs.Perm fs')
    (hinj : ∀ a ∈ fs, ∀ b ∈ fs, a.id = b.id → a = b) :
    fs.insertionSort canonR = fs'.insertionSort canonR := by
  refine sorted_eq_of_perm
    ((List.perm_insertionSort canonR fs).trans
      (hperm.trans (List.perm_insertionSort canonR fs').symm))
    (sorted_canon fs) (sorted_canon fs') ?_
  intro a ha b hb hab hba
  have ha' : a ∈ fs := (List.perm_insertionSort canonR fs).subset ha
  have hb' : b ∈ fs := (List.perm_insertionSort canonR fs).subset hb
  rw [canonR, canonLE_iff] at hab hba
  exact hinj a ha' b hb' (by omega)

theorem resolve_perm (p : EnginePreset) {fs fs' : List Finding} (hperm : fs.Perm fs')
    (hinj : ∀ a ∈ fs, ∀ b ∈ fs, a.id = b.id → a = b) :
    resolve p fs = resolve p fs' := by
  unfold resolve
  rw [insertionSort_canon_eq hperm hinj]

theorem resolved_mem {p : EnginePreset} {fs : List Finding} {w : Finding}
    (hw : w ∈ (resolve p fs).resolved) :
    p.entity_enabled w.entity = true ∧ w ∈ fs := by
  rw [resolve_resolved] at hw
  rcases List.mem_filterMap.mp hw with ⟨c, hc, hwc⟩
  have hwc' := clusterWinner_mem hwc
  have hflat : w ∈ (clusterSorted ((fs.insertionSort canonR).filter
      (fun f => p.entity_enabled f.entity))).flatten :=
    List.mem_flatten.mpr ⟨c, hc, hwc'⟩
  rw [clusterSorted_flatten] at hflat
  have hmem := List.mem_filter.mp hflat
  exact ⟨hmem.2, (List.perm_insertionSort canonR fs).subset hmem.1⟩

theorem resolved_sep (p : EnginePreset) (fs : List Finding) :
    (resolve p fs).resolved.Pairwise (fun a b => a.span.stop ≤ b.span.start) := by
  rw [resolve_resolved]
  have hsep := clusterSorted_sep
    ((fs.insertionSort canonR).filter (fun f => p.entity_enabled f.entity))
    ((sorted_start fs).filter (fun f => p.entity_enabled f.entity))
  refine List.Pairwise.filterMap (clusterWinner p) ?_ hsep
  intro c c' hcc' w hw w' hw'
  exact hcc' w (clusterWinner_mem hw) w' (clusterWinner_mem hw')

theorem clusterSorted_sep_singletons : ∀ (l : List Finding),
    l.Pairwise (fun a b => a.span.stop ≤ b.span.start) →
    clusterSorted l = l.map (fun f => [f]) := by
  intro l
  induction l with
  | nil => intro _; simp [clusterSorted]
  | cons f rest ih =>
    intro hsep
    cases rest with
    | nil => simp [clusterSorted, clusterGo]
    | cons g r =>
      have hfg : f.span.stop ≤ g.span.start := (List.pairwise_cons.mp hsep).1 g (by simp)
      show clusterGo [f] f.span.stop (g :: r) = [f] :: (g :: r).map (fun f => [f])
      unfold clusterGo
      rw [if_neg (by omega)]
      have := ih (List.pairwise_cons.mp hsep).2
      rw [show clusterGo [g] g.span.stop r = clusterSorted (g :: r) from rfl, this]

theorem filterMap_winner_singletons (p : EnginePreset) : ∀ (l : List Finding),
    (l.map (fun f => [f])).filterMap (clusterWinner p) = l := by
  intro l
  induction l with
  | nil => simp
  | cons f rest ih => simp [clusterWinner, pickWinner, ih]

theorem losers_singletons (p : EnginePreset) : ∀ (l : List Finding),
    ((l.map (fun f => [f])).map (clusterLosers p)).flatten = [] := by
  intro l
  induction l with
  | nil => simp
  | cons f rest ih => simp [clusterLosers, pickWinner, ih]

theorem resolve_idempotent (p : EnginePreset) (fs : List Finding)
    (hwf : ∀ f ∈ fs, f.span.start < f.span.stop) :
    resolve p (resolve p fs).resolved = ⟨(resolve p fs).resolved, []⟩ := by
  have hmem : ∀ w ∈ (resolve p fs).resolved, p.entity_enabled w.entity = true ∧ w ∈ fs :=
    fun w hw => resolved_mem hw
  have hsep := resolved_sep p fs
  have hsorted : (resolve p fs).resolved.Pairwise canonR := by
    refine List.Pairwise.imp_of_mem ?_ hsep
    intro a b ha hb hab
    have hwa := hwf a (hmem a ha).2
    rw [canonR, canonLE_iff]
    omega
  have hsort_eq : (resolve p fs).resolved.insertionSort canonR = (resolve p fs).resolved :=
    List.Sorted.insertionSort_eq hsorted
  have hfilter_enabled : (resolve p fs).resolved.filter (fun f => p.entity_enabled f.entity)
      = (resolve p fs).resolved :=
    List.filter_eq_self.mpr (fun w hw => (hmem w hw).1)
  have hfilter_disabled : (resolve p fs).resolved.filter (fun f => !(p.entity_enabled f.entity))
      = [] := by
    rw [List.filter_eq_nil_iff]
    intro w hw
    simp [(hmem w hw).1]
  have h1 : (resolve p (resolve p fs).resolved).resolved = (resolve p fs).resolved := by
    rw [resolve_resolved, hsort_eq, hfilter_enabled,
      clusterSorted_sep_singletons _ hsep, filterMap_winner_singletons]
  have h2 : (resolve p (resolve p fs).resolved).suppressed = [] := by
    rw [resolve_suppressed, hsort_eq, hfilter_disabled, hfilter_enabled,
      clusterSorted_sep_singletons _ hsep, losers_singletons]
    simp
  have hsplit : resolve p (resolve p fs).resolved =
      ⟨(resolve p (resolve p fs).resolved).resolved,
        (resolve p (resolve p fs).resolved).suppressed⟩ := rfl
  rw [hsplit, h1, h2]

/-- C5: The conflict resolver is idempotent (resolving the resolved
partition again, with suppressed findings excluded, returns it unchanged
and suppresses nothing) and order-independent (permuting the raw input,
with distinct findings carrying distinct ids, yields the identical
resolved/suppressed partition). -/
theorem resolver_idempotent_and_order_independent :
    (∀ (p : EnginePreset) (fs : List Finding),
      (∀ f ∈ fs, f.span.start < f.span.stop) →
      resolve p (resolve p fs).resolved = ⟨(resolve p fs).resolved, []⟩) ∧
    (∀ (p : EnginePreset) (fs fs' : List Finding), fs.Perm fs' →
      (∀ a ∈ fs, ∀ b ∈ fs, a.id = b.id → a = b) →
      resolve p fs = resolve p fs') :=
  ⟨resolve_idempotent, fun p _ _ h1 h2 => resolve_perm p h1 h2⟩

/-- Witness for C5 at concrete inputs: Scenario A's two raw findings, and
the same pair in swapped order. -/
theorem resolver_idempotent_and_order_independent_witness :
    resolve scenarioPreset
        (resolve scenarioPreset [findingNationalId, findingNumber]).resolved
      = ⟨(resolve scenarioPreset [findingNationalId, findingNumber]).resolved, []⟩ ∧
    resolve scenarioPreset [findingNationalId, findingNumber]
      = resolve scenarioPreset [findingNumber, findingNationalId] :=
  ⟨resolver_idempotent_and_order_independent.1 scenarioPreset
      [findingNationalId, findingNumber] (by decide),
    resolver_idempotent_and_order_independent.2 scenarioPreset
      [findingNationalId, findingNumber] [findingNumber, findingNationalId]
      (by decide) (by decide)⟩

/-! ## Policy Evaluator lemmas and the escalation floor (C1) -/

theorem actionLE_trans : ∀ a b c : Action, actionLE a b → actionLE b c → actionLE a c := by
  decide

theorem actionLE_any_redact : ∀ a : Action, actionLE a .redact := by decide

theorem maxAction_ge_right : ∀ a b : Action, actionLE b (maxAction a b) := by decide

theorem maxAction_redact : ∀ a : Action, maxAction a .redact = .redact := by decide

theorem redact_le_forces : ∀ a : Action, actionLE .redact a → a = .redact := by decide

theorem pseudonymise_le_floor (e : EntityKind) (h : entityPriority e ≥ 80) :
    actionLE .pseudonymise (floorAction e) := by
  unfold floorAction
  by_cases h1 : entityPriority e ≥ 90
  · rw [if_pos h1]
    decide
  · rw [if_neg h1, if_pos h]
    decide

/-- C1: For every valid preset and every resolved finding, the final action
is never weaker than the entity's priority floor: priority >= 90 always
yields redact; priority >= 80 yields at least pseudonymise unless the
detected text is whitelisted at priority < 90; and on the low-confidence
path the uncertainty policy is raised to the floor whenever it is weaker. -/
theorem escalation_floor_never_weakened (p : EnginePreset) (f : Finding)
    (hv : ValidPreset p) :
    (entityPriority f.entity ≥ 90 → (evaluateFinding p f).1 = .redact) ∧
    (entityPriority f.entity ≥ 80 →
      (wlMatch p f = false ∨ entityPriority f.entity ≥ 90) →
      actionLE .pseudonymise (evaluateFinding p f).1) ∧
    (f.confidence < p.minimum_confidence → wlMatch p f = false →
      actionLE (floorAction f.entity) (evaluateFinding p f).1) := by
  have hv' := hv f.entity
  simp only [evaluateFinding]
  refine ⟨?_, ?_, ?_⟩
  · intro h90
    have hfl : floorAction f.entity = .redact := by rw [floorAction, if_pos h90]
    rw [hfl] at hv'
    have hcfg : p.configured f.entity = .redact := redact_le_forces _ hv'
    have hnW : ¬(wlMatch p f = true ∧ entityPriority f.entity < 90) :=
      fun hcon => absurd hcon.2 (by omega)
    by_cases hbl : blMatch p f = true
    · rw [if_pos hbl]
    · rw [if_neg hbl, if_neg hnW]
      by_cases hc : f.confidence < p.minimum_confidence
      · rw [if_pos hc, hfl, maxAction_redact]
      · rw [if_neg hc]
        exact hcfg
  · intro h80 hwl9
    have hflle : actionLE .pseudonymise (floorAction f.entity) :=
      pseudonymise_le_floor f.entity h80
    by_cases hbl : blMatch p f = true
    · rw [if_pos hbl]
      decide
    · rw [if_neg hbl]
      have hnW : ¬(wlMatch p f = true ∧ entityPriority f.entity < 90) := by
        rcases hwl9 with h | h
        · intro hcon
          rw [h] at hcon
          exact absurd hcon.1 (by simp)
        · intro hcon
          omega
      rw [if_neg hnW]
      by_cases hc : f.confidence < p.minimum_confidence
      · rw [if_pos hc]
        exact actionLE_trans _ _ _ hflle (maxAction_ge_right _ _)
      · rw [if_neg hc]
        exact actionLE_trans _ _ _ hflle hv'
  · intro hconf hwl
    by_cases hbl : blMatch p f = true
    · rw [if_pos hbl]
      exact actionLE_any_redact _
    · rw [if_neg hbl]
      have hnW : ¬(wlMatch p f = true ∧ entityPriority f.entity < 90) := by
        intro hcon
        rw [hwl] at hcon
        exact absurd hcon.1 (by simp)
      rw [if_neg hnW, if_pos hconf]
      exact maxAction_ge_right _ _

/-- Witness for C1 at concrete inputs: the scenario preset is valid and the
priority-100 NATIONAL_ID finding receives redact. -/
theorem escalation_floor_never_weakened_witness :
    (evaluateFinding scenarioPreset findingNationalId).1 = .redact :=
  (escalation_floor_never_weakened scenarioPreset findingNationalId (by decide)).1
    (by decide)

/-! ## Pseudonym generator lemmas (C6) -/

/-- A pseudonym normalization key. -/
abbrev PKey : Type := EntityKind × List Char

/-- One step of first-occurrence collection. -/
def addOcc (acc : List PKey) (a : PKey) : List PKey :=
  if a ∈ acc then acc else acc ++ [a]

/-- The distinct keys of a list in order of first occurrence. -/
def firstOccs (l : List PKey) : List PKey := l.foldl addOcc []

/-- The 1-based rank of a key among the distinct keys of its entity kind,
in order of first occurrence. -/
def rankOf (ks : List PKey) (k : PKey) : Nat :=
  idxOfD k ((firstOccs ks).filter (fun x => x.1 = k.1)) + 1

/-- The pseudonym map determined by a list of already-processed keys: each
distinct key maps to the token of its rank. -/
def mkState (ks : List PKey) : PseudoState :=
  (firstOccs ks).map (fun k => (k, pseudoToken k.1 (rankOf ks k)))

theorem mem_foldl_addOcc (l : List PKey) : ∀ acc x,
    x ∈ l.foldl addOcc acc ↔ x ∈ acc ∨ x ∈ l := by
  induction l with
  | nil => intro acc x; simp
  | cons a rest ih =>
    intro acc x
    rw [List.foldl_cons]
    by_cases ha : a ∈ acc
    · rw [show addOcc acc a = acc from if_pos ha, ih]
      constructor
      · rintro (h | h) <;> simp [h]
      · rintro (h | h)
        · exact Or.inl h
        · rcases List.mem_cons.mp h with h' | h'
          · exact Or.inl (h' ▸ ha)
          · exact Or.inr h'
    · rw [show addOcc acc a = acc ++ [a] from if_neg ha, ih]
      simp only [List.mem_append, List.mem_singleton, List.mem_cons]
      tauto

theorem mem_firstOccs (l : List PKey) (x : PKey) : x ∈ firstOccs l ↔ x ∈ l := by
  rw [firstOccs, mem_foldl_addOcc]
  simp

theorem foldl_addOcc_prefix (l : List PKey) : ∀ acc,
    ∃ t, l.foldl addOcc acc = acc ++ t := by
  induction l with
  | nil => intro acc; exact ⟨[], by simp⟩
  | cons a rest ih =>
    intro acc
    rw [List.foldl_cons]
    by_cases ha : a ∈ acc
    · rw [show addOcc acc a = acc from if_pos ha]
      exact ih acc
    · rw [show addOcc acc a = acc ++ [a] from if_neg ha]
      rcases ih (acc ++ [a]) with ⟨t, ht⟩
      exact ⟨[a] ++ t, by rw [ht]; simp⟩

theorem firstOccs_append (pre more : List PKey) :
    ∃ t, firstOccs (pre ++ more) = firstOccs pre ++ t := by
  rw [firstOccs, List.foldl_append]
  exact foldl_addOcc_prefix more (firstOccs pre)

theorem firstOccs_snoc (pre : List PKey) (k : PKey) :
    firstOccs (pre ++ [k]) = addOcc (firstOccs pre) k := by
  rw [firstOccs, List.foldl_append]
  rfl

theorem idxOfD_append_left {α : Type} [DecidableEq α] (a : α) :
    ∀ (l₁ l₂ : List α), a ∈ l₁ → idxOfD a (l₁ ++ l₂) = idxOfD a l₁ := by
  intro l₁
  induction l₁ with
  | nil => intro l₂ h; cases h
  | cons b l ih =>
    intro l₂ h
    simp only [List.cons_append, idxOfD]
    split
    · rfl
    · rename_i hba
      have : a ∈ l := by
        rcases List.mem_cons.mp h with h' | h'
        · exact absurd h'.symm hba
        · exact h'
      show idxOfD a (l ++ l₂) + 1 = idxOfD a l + 1
      rw [ih l₂ this]

theorem idxOfD_append_self {α : Type} [DecidableEq α] (a : α) :
    ∀ (l : List α), a ∉ l → idxOfD a (l ++ [a]) = l.length := by
  intro l
  induction l with
  | nil => intro _; simp [idxOfD]
  | cons b l ih =>
    intro h
    simp only [List.cons_append, idxOfD]
    rw [if_neg (fun hba => h (by simp [hba]))]
    show idxOfD a (l ++ [a]) + 1 = (b :: l).length
    rw [ih (fun hal => h (by simp [hal]))]
    simp

theorem rankOf_stable (pre more : List PKey) (k : PKey) (hk : k ∈ firstOccs pre) :
    rankOf (pre ++ more) k = rankOf pre k := by
  rcases firstOccs_append pre more with ⟨t, ht⟩
  unfold rankOf
  rw [ht, List.filter_append]
  rw [idxOfD_append_left k _ _ (List.mem_filter.mpr ⟨hk, by simp⟩)]

theorem mkState_congr (ks ks' : List PKey) (h : firstOccs ks = firstOccs ks') :
    mkState ks = mkState ks' := by
  unfold mkState rankOf
  rw [h]

theorem lookup_mapped (g : PKey → List Char) (k : PKey) : ∀ (D : List PKey),
    ((D.map (fun x => (x, g x))).find? (fun kv => kv.1 = k)).map (fun kv => kv.2)
      = if k ∈ D then some (g k) else none := by
  intro D
  induction D with
  | nil => simp
  | cons d D' ih =>
    simp only [List.map_cons, List.find?]
    by_cases hdk : d = k
    · rw [hdk]
      simp
    · have h1 : (decide ((d, g d).1 = k)) = false := by simp [hdk]
      rw [h1, ih]
      by_cases hmem : k ∈ D'
      · rw [if_pos hmem, if_pos (by simp [hmem])]
      · have hnk : k ∉ d :: D' := by
          intro hk
          rcases List.mem_cons.mp hk with h' | h'
          · exact hdk h'.symm
          · exact hmem h'
        rw [if_neg hmem, if_neg hnk]

theorem lookup_mkState (pre : List PKey) (k : PKey) :
    pseudoLookup k (mkState pre)
      = if k ∈ firstOccs pre then some (pseudoToken k.1 (rankOf pre k)) else none := by
  unfold pseudoLookup mkState
  exact lookup_mapped (fun x => pseudoToken x.1 (rankOf pre x)) k (firstOccs pre)

theorem kindCount_mkState (pre : List PKey) (e : EntityKind) :
    kindCount e (mkState pre)
      = ((firstOccs pre).filter (fun x => x.1 = e)).length := by
  unfold kindCount mkState
  rw [List.filter_map]
  simp [Function.comp_def]

theorem mem_addOcc_self (A : List PKey) (k : PKey) : k ∈ addOcc A k := by
  unfold addOcc
  split
  · assumption
  · simp

theorem rankOf_snoc_self (pre : List PKey) (k : PKey) (hk : k ∉ firstOccs pre) :
    rankOf (pre ++ [k]) k
      = ((firstOccs pre).filter (fun x => x.1 = k.1)).length + 1 := by
  unfold rankOf
  rw [firstOccs_snoc, show addOcc (firstOccs pre) k = firstOccs pre ++ [k] from if_neg hk,
    List.filter_append, show (List.filter (fun x => x.1 = k.1) [k]) = [k] by simp]
  rw [idxOfD_append_self k _ (fun hmem => hk (List.mem_filter.mp hmem).1)]

theorem pgenAll_spec : ∀ (fs : List Finding) (pre : List PKey),
    (pgenAll (mkState pre) fs).1
      = fs.map (fun f => pseudoToken f.entity
          (rankOf (pre ++ fs.map normKey) (normKey f))) ∧
    (pgenAll (mkState pre) fs).2 = mkState (pre ++ fs.map normKey) := by
  intro fs
  induction fs with
  | nil => intro pre; simp [pgenAll]
  | cons f rest ih =>
    intro pre
    have hmapcons : (f :: rest).map normKey = normKey f :: rest.map normKey := rfl
    have hassoc : pre ++ (normKey f :: rest.map normKey)
        = (pre ++ [normKey f]) ++ rest.map normKey := by
      rw [List.append_cons]
    by_cases hk : normKey f ∈ firstOccs pre
    · have hlook := lookup_mkState pre (normKey f)
      rw [if_pos hk] at hlook
      have hfst : (pgen (mkState pre) f).1
          = pseudoToken (normKey f).1 (rankOf pre (normKey f)) := by
        unfold pgen
        rw [hlook]
      have hsnd : (pgen (mkState pre) f).2 = mkState pre := by
        unfold pgen
        rw [hlook]
      have hstate : mkState pre = mkState (pre ++ [normKey f]) :=
        mkState_congr _ _ (by
          rw [firstOccs_snoc, show addOcc (firstOccs pre) (normKey f) = firstOccs pre
            from if_pos hk])
      refine ⟨?_, ?_⟩
      · show (pgen (mkState pre) f).1 :: (pgenAll (pgen (mkState pre) f).2 rest).1
          = List.map (fun g => pseudoToken g.entity
              (rankOf (pre ++ (f :: rest).map normKey) (normKey g))) (f :: rest)
        rw [List.map_cons, hfst, hsnd]
        congr 1
        · rw [hmapcons, rankOf_stable pre (normKey f :: rest.map normKey) (normKey f) hk]
          rfl
        · rw [hstate, (ih (pre ++ [normKey f])).1, hmapcons, hassoc]
      · show (pgenAll (pgen (mkState pre) f).2 rest).2
          = mkState (pre ++ (f :: rest).map normKey)
        rw [hsnd, hstate, (ih (pre ++ [normKey f])).2, hmapcons, hassoc]
    · have hlook := lookup_mkState pre (normKey f)
      rw [if_neg hk] at hlook
      have hcount : kindCount f.entity (mkState pre)
          = ((firstOccs pre).filter (fun x => x.1 = f.entity)).length :=
        kindCount_mkState pre f.entity
      have hfst : (pgen (mkState pre) f).1
          = pseudoToken f.entity (kindCount f.entity (mkState pre) + 1) := by
        unfold pgen
        rw [hlook]
      have hsnd : (pgen (mkState pre) f).2
          = mkState pre ++ [(normKey f,
              pseudoToken f.entity (kindCount f.entity (mkState pre) + 1))] := by
        unfold pgen
        rw [hlook]
      have hsnoc : rankOf (pre ++ [normKey f]) (normKey f)
          = ((firstOccs pre).filter (fun x => x.1 = f.entity)).length + 1 :=
        rankOf_snoc_self pre (normKey f) hk
      have hmemsnoc : normKey f ∈ firstOccs (pre ++ [normKey f]) := by
        rw [firstOccs_snoc]
        exact mem_addOcc_self _ _
      have hstate : mkState pre ++ [(normKey f,
            pseudoToken f.entity (kindCount f.entity (mkState pre) + 1))]
          = mkState (pre ++ [normKey f]) := by
        rw [hcount]
        unfold mkState
        rw [firstOccs_snoc, show addOcc (firstOccs pre) (normKey f)
          = firstOccs pre ++ [normKey f] from if_neg hk, List.map_append]
        congr 1
        · refine List.map_congr_left ?_
          intro x hx
          rw [rankOf_stable pre [normKey f] x hx]
        · rw [List.map_singleton, hsnoc]
          rfl
      refine ⟨?_, ?_⟩
      · show (pgen (mkState pre) f).1 :: (pgenAll (pgen (mkState pre) f).2 rest).1
          = List.map (fun g => pseudoToken g.entity
              (rankOf (pre ++ (f :: rest).map normKey) (normKey g))) (f :: rest)
        rw [List.map_cons, hfst, hsnd, hstate]
        congr 1
        · rw [hmapcons, List.append_cons,
            rankOf_stable (pre ++ [normKey f]) (rest.map normKey) (normKey f) hmemsnoc,
            hsnoc, hcount]
        · rw [(ih (pre ++ [normKey f])).1, hmapcons, hassoc]
      · show (pgenAll (pgen (mkState pre) f).2 rest).2
          = mkState (pre ++ (f :: rest).map normKey)
        rw [hsnd, hstate, (ih (pre ++ [normKey f])).2, hmapcons, hassoc]

/-- Scenario B: a PERSON finding for the first occurrence of John Smith. -/
def findingJohn1 : Finding :=
  { id := 10, entity := .PERSON, span := ⟨0, 10⟩
    detected_text := "John Smith".toList
    detection_source := "spacy".toList, model_id := none, confidence := 90
    context_snippet := [] }

/-- Scenario B: a PERSON finding for the second occurrence of John Smith. -/
def findingJohn2 : Finding :=
  { id := 11, entity := .PERSON, span := ⟨15, 25⟩
    detected_text := "John Smith".toList
    detection_source := "spacy".toList, model_id := none, confidence := 88
    context_snippet := [] }

/-- C6: Per run, the pseudonym generator keyed by
(entity_kind, trim(lowercase(detected_text))) gives every finding the token
of its key's 1-based first-occurrence rank among the distinct keys of its
entity kind — so the first occurrence of each key allocates the next
sequence number for that kind starting at 1, and later occurrences of the
same key reuse the allocated token; in particular both Scenario B
occurrences of John Smith as PERSON map to PERSON_001. -/
theorem pseudonym_tokens_by_first_occurrence :
    (∀ fs : List Finding, (pgenAll [] fs).1
      = fs.map (fun f => pseudoToken f.entity (rankOf (fs.map normKey) (normKey f)))) ∧
    (pgenAll [] [findingJohn1, findingJohn2]).1
      = ["PERSON_001".toList, "PERSON_001".toList] := by
  constructor
  · intro fs
    have h := (pgenAll_spec fs []).1
    simpa using h
  · decide

/-! ## Redaction applier lemmas (C7) -/

theorem applyGo_length_eq (s₁ s₂ : EvalItem → List Char → List Char)
    (h : ∀ it s, (s₁ it s).length = (s₂ it s).length) (text : List Char) :
    ∀ (L : List EvalItem) (cursor : Nat),
    (applyGo s₁ text cursor L).length = (applyGo s₂ text cursor L).length := by
  intro L
  induction L with
  | nil => intro c; rfl
  | cons it L' ih =>
    intro c
    simp only [applyGo, List.length_append]
    rw [h, ih]

theorem applyGo_spec (subst : EvalItem → List Char → List Char) (text : List Char) :
    ∀ (L : List EvalItem) (cursor : Nat),
    L.Pairwise (fun a b => a.span.stop ≤ b.span.start) →
    (∀ it ∈ L, cursor ≤ it.span.start ∧ it.span.start ≤ it.span.stop ∧
      it.span.stop ≤ text.length) →
    (∀ it ∈ L, (subst it (sliceOf text it.span)).length
      = it.span.stop - it.span.start) →
    cursor ≤ text.length →
    ((applyGo subst text cursor L).length = text.length - cursor ∧
     (∀ i, cursor ≤ i → i < text.length →
        (∀ it ∈ L, i < it.span.start ∨ it.span.stop ≤ i) →
        (applyGo subst text cursor L)[i - cursor]? = text[i]?) ∧
     (∀ it ∈ L, ∀ j, j < it.span.stop - it.span.start →
        (applyGo subst text cursor L)[it.span.start - cursor + j]?
          = (subst it (sliceOf text it.span))[j]?)) := by
  intro L
  induction L with
  | nil =>
    intro cursor _ _ _ hc
    refine ⟨by simp [applyGo], ?_, by simp⟩
    intro i hci hil _
    simp only [applyGo]
    rw [List.getElem?_drop]
    congr 1
    omega
  | cons it L' ihL =>
    intro cursor hsep hbounds hlen hc
    have hit := hbounds it (by simp)
    have hsep' := (List.pairwise_cons.mp hsep).2
    have hhead := (List.pairwise_cons.mp hsep).1
    have hbounds' : ∀ x ∈ L', it.span.stop ≤ x.span.start ∧ x.span.start ≤ x.span.stop ∧
        x.span.stop ≤ text.length :=
      fun x hx => ⟨hhead x hx, (hbounds x (by simp [hx])).2.1, (hbounds x (by simp [hx])).2.2⟩
    have hlen' : ∀ x ∈ L', (subst x (sliceOf text x.span)).length
        = x.span.stop - x.span.start := fun x hx => hlen x (by simp [hx])
    have ihr := ihL it.span.stop hsep'
      (fun x hx => ⟨(hbounds' x hx).1, (hbounds' x hx).2.1, (hbounds' x hx).2.2⟩)
      hlen' hit.2.2
    have hA : ((text.drop cursor).take (it.span.start - cursor)).length
        = it.span.start - cursor := by
      simp only [List.length_take, List.length_drop]
      omega
    have hB : (subst it (sliceOf text it.span)).length = it.span.stop - it.span.start :=
      hlen it (by simp)
    refine ⟨?_, ?_, ?_⟩
    · simp only [applyGo, List.length_append]
      rw [hA, hB, ihr.1]
      omega
    · intro i hci hil hout
      rcases hout it (by simp) with hlt | hge
      · simp only [applyGo]
        rw [List.getElem?_append,
          if_pos (by simp only [List.length_append]; rw [hA, hB]; omega),
          List.getElem?_append, if_pos (by rw [hA]; omega),
          List.getElem?_take, if_pos (by omega), List.getElem?_drop]
        congr 1
        omega
      · simp only [applyGo]
        rw [List.getElem?_append,
          if_neg (by simp only [List.length_append]; rw [hA, hB]; omega)]
        have hidx : i - cursor
            - ((text.drop cursor).take (it.span.start - cursor)
                ++ subst it (sliceOf text it.span)).length
            = i - it.span.stop := by
          simp only [List.length_append]
          rw [hA, hB]
          omega
        rw [hidx]
        exact ihr.2.1 i (by omega) hil (fun x hx => hout x (by simp [hx]))
    · intro x hx j hj
      rcases List.mem_cons.mp hx with hxit | hxL
      · rw [hxit] at hj ⊢
        simp only [applyGo]
        rw [List.getElem?_append,
          if_pos (by simp only [List.length_append]; rw [hA, hB]; omega),
          List.getElem?_append, if_neg (by rw [hA]; omega)]
        have hidx : it.span.start - cursor + j
            - ((text.drop cursor).take (it.span.start - cursor)).length = j := by
          rw [hA]
          omega
        rw [hidx]
      · have hxs : it.span.stop ≤ x.span.start := hhead x hxL
        have hxb := hbounds x (by simp [hxL])
        simp only [applyGo]
        rw [List.getElem?_append,
          if_neg (by simp only [List.length_append]; rw [hA, hB]; omega)]
        have hidx : x.span.start - cursor + j
            - ((text.drop cursor).take (it.span.start - cursor)
                ++ subst it (sliceOf text it.span)).length
            = x.span.start - it.span.stop + j := by
          simp only [List.length_append]
          rw [hA, hB]
          omega
        rw [hidx]
        exact ihr.2.2 x hxL j hj

theorem items_sorted_eq (items : List EvalItem)
    (hsep : items.Pairwise (fun a b => a.span.stop ≤ b.span.start))
    (hwf : ∀ it ∈ items, it.span.start ≤ it.span.stop) :
    items.insertionSort itemR = items := by
  refine List.Sorted.insertionSort_eq ?_
  refine List.Pairwise.imp_of_mem ?_ hsep
  intro a b ha _ hab
  have := hwf a ha
  unfold itemR
  omega

/-- C7: The redaction applier sorts resolved findings by span start
ascending and rewrites in one left-to-right pass: a redact action
substitutes a block-character run spanning the same length as the replaced
span; the output's length depends only on substitution lengths, never on
substitution content; and under length-preserving substitutions the output
has the text's length, copies unaffected text verbatim at its original
positions, and places each span's substitution exactly at that span's
original offsets — no substitution invalidates or re-offsets a later span
computed on the original text. -/
theorem redaction_applier_no_reoffset :
    (∀ (it : EvalItem) (s : List Char), it.action = .redact →
      defaultSubst it s = List.replicate (it.span.stop - it.span.start) blockChar) ∧
    (∀ (s₁ s₂ : EvalItem → List Char → List Char) (text : List Char)
        (items : List EvalItem),
      (∀ it s, (s₁ it s).length = (s₂ it s).length) →
      (applyRedactions s₁ text items).length
        = (applyRedactions s₂ text items).length) ∧
    (∀ (subst : EvalItem → List Char → List Char) (text : List Char)
        (items : List EvalItem),
      items.Pairwise (fun a b => a.span.stop ≤ b.span.start) →
      (∀ it ∈ items, it.span.start ≤ it.span.stop ∧ it.span.stop ≤ text.length) →
      (∀ it ∈ items, (subst it (sliceOf text it.span)).length
        = it.span.stop - it.span.start) →
      ((applyRedactions subst text items).length = text.length ∧
       (∀ i, i < text.length →
          (∀ it ∈ items, i < it.span.start ∨ it.span.stop ≤ i) →
          (applyRedactions subst text items)[i]? = text[i]?) ∧
       (∀ it ∈ items, ∀ j, j < it.span.stop - it.span.start →
          (applyRedactions subst text items)[it.span.start + j]?
            = (subst it (sliceOf text it.span))[j]?))) := by
  refine ⟨?_, ?_, ?_⟩
  · intro it s h
    unfold defaultSubst
    rw [h]
  · intro s₁ s₂ text items h
    unfold applyRedactions
    exact applyGo_length_eq s₁ s₂ h text _ 0
  · intro subst text items hsep hb hlen
    have hsort := items_sorted_eq items hsep (fun it hit => (hb it hit).1)
    unfold applyRedactions
    rw [hsort]
    have h := applyGo_spec subst text items 0 hsep
      (fun it hit => ⟨Nat.zero_le _, (hb it hit).1, (hb it hit).2⟩) hlen (Nat.zero_le _)
    refine ⟨?_, ?_, ?_⟩
    · rw [h.1]
      omega
    · intro i hi hout
      have := h.2.1 i (Nat.zero_le _) hi hout
      simpa using this
    · intro it hit j hj
      have := h.2.2 it hit j hj
      simpa using this

/-- Witness for C7 at concrete inputs: one redact item over a six-character
text keeps the length and copies the untouched first character verbatim. -/
theorem redaction_applier_no_reoffset_witness :
    (applyRedactions defaultSubst "abcdef".toList [⟨⟨1, 3⟩, .redact, []⟩]).length
      = "abcdef".toList.length ∧
    (applyRedactions defaultSubst "abcdef".toList [⟨⟨1, 3⟩, .redact, []⟩])[0]?
      = "abcdef".toList[0]? := by
  have h := redaction_applier_no_reoffset.2.2 defaultSubst "abcdef".toList
    [⟨⟨1, 3⟩, .redact, []⟩] (by decide) (by decide) (by decide)
  exact ⟨h.1, h.2.1 0 (by decide) (by decide)⟩

/-! ## Remaining claim theorems -/

/-- C2: The engine is a deterministic function of its input: two runs of the
whole pipeline on an identical (text, raw findings, preset) triple yield
identical redacted_text and identical pseudonym assignments.  The pipeline
is a pure function with no hidden state, so this is congruence. -/
theorem engine_deterministic (p₁ p₂ : EnginePreset) (t₁ t₂ : List Char)
    (r₁ r₂ : List Finding) (hp : p₁ = p₂) (ht : t₁ = t₂) (hr : r₁ = r₂) :
    (runEngine p₁ t₁ r₁).redacted_text = (runEngine p₂ t₂ r₂).redacted_text ∧
    (runEngine p₁ t₁ r₁).pseudonym_map = (runEngine p₂ t₂ r₂).pseudonym_map := by
  subst hp
  subst ht
  subst hr
  exact ⟨rfl, rfl⟩

/-- Witness for C2 at a concrete triple: Scenario B's text and findings. -/
theorem engine_deterministic_witness :
    (runEngine scenarioPreset "John Smith and John Smith here".toList
        [findingJohn1, findingJohn2]).redacted_text
      = (runEngine scenarioPreset "John Smith and John Smith here".toList
          [findingJohn1, findingJohn2]).redacted_text ∧
    (runEngine scenarioPreset "John Smith and John Smith here".toList
        [findingJohn1, findingJohn2]).pseudonym_map
      = (runEngine scenarioPreset "John Smith and John Smith here".toList
          [findingJohn1, findingJohn2]).pseudonym_map :=
  engine_deterministic scenarioPreset scenarioPreset
    ("John Smith and John Smith here".toList) ("John Smith and John Smith here".toList)
    [findingJohn1, findingJohn2] [findingJohn1, findingJohn2] rfl rfl rfl

/-- Witness for C3 at concrete inputs: Scenario A's two raw findings are
partitioned without loss, and the suppressed NUMBER finding names a
resolved winner. -/
theorem resolver_partitions_without_loss_witness :
    (resolve scenarioPreset [findingNationalId, findingNumber]).resolved.length
      + (resolve scenarioPreset [findingNationalId, findingNumber]).suppressed.length
      = [findingNationalId, findingNumber].length ∧
    ∃ w ∈ (resolve scenarioPreset [findingNationalId, findingNumber]).resolved,
      (⟨findingNumber, .overlap, some findingNationalId.id⟩ : Suppressed).superseded_by
        = some w.id :=
  ⟨(resolver_partitions_without_loss scenarioPreset [findingNationalId, findingNumber]).1,
    (resolver_partitions_without_loss scenarioPreset
      [findingNationalId, findingNumber]).2.2
      ⟨findingNumber, .overlap, some findingNationalId.id⟩ (by decide) (by decide)⟩

/-- C8 counterexample: the AnalyzeTextResponse and AnalyzeFileResponse
record types are not exactly the claimed field sets — each also declares a
run_folder field (api.ts lines 26-33 and 51-57). -/
theorem analyze_responses_not_exactly_claimed_fields :
    ¬ analyzeTextResponseFields.Perm specAnalyzeTextFields ∧
    ¬ analyzeFileResponseFields.Perm specAnalyzeFileFields := by
  constructor <;> decide

/-- C8 amended: analyze_text returns a record with exactly the fields
run_id, run_folder, redacted_text, summary, findings_count, language, and
analyze_file one with exactly run_id, run_folder, output_path, summary,
findings_count — the claimed field sets plus run_folder. -/
theorem analyze_responses_fields :
    analyzeTextResponseFields.Perm ("run_folder" :: specAnalyzeTextFields) ∧
    analyzeFileResponseFields.Perm ("run_folder" :: specAnalyzeFileFields) := by
  constructor <;> decide

/-- C9 counterexample: the Preset type passed to runs (api.ts lines 10-20,
the type of app.ts's defaultPreset) has no whitelist or blacklist field. -/
theorem preset_type_lacks_term_lists :
    "whitelist" ∉ presetFields ∧ "blacklist" ∉ presetFields ∧
    appDefaultPreset.preset_id = "layer1_fast_legal_scrub" := by
  refine ⟨by decide, by decide, rfl⟩

/-- C9 amended: the declared Preset type carries the per-entity toggles,
minimum_confidence, uncertainty_policy, pseudonym_style and language_mode
but no term lists; only the main App's getCurrentPreset adds whitelist,
blacklist and language_whitelists (from the settings state) to the preset
value it passes to a run, preserving the base policy fields. -/
theorem getCurrentPreset_supplies_term_lists :
    ("whitelist" ∈ fullPresetFields ∧ "blacklist" ∈ fullPresetFields ∧
      "whitelist" ∉ presetFields ∧ "blacklist" ∉ presetFields) ∧
    (∀ st : AppState,
      (getCurrentPreset st).minimum_confidence = st.preset.minimum_confidence ∧
      (getCurrentPreset st).uncertainty_policy = st.preset.uncertainty_policy ∧
      (getCurrentPreset st).pseudonym_style = st.preset.pseudonym_style ∧
      (getCurrentPreset st).whitelist = nonBlankLines st.globalWhitelist ∧
      (getCurrentPreset st).blacklist = nonBlankLines st.globalBlacklist) :=
  ⟨by decide, fun _ => ⟨rfl, rfl, rfl, rfl, rfl⟩⟩

/-- C10: In every preset of ALL_PRESETS, entities_enabled maps DATE to
false and each of the other fifteen supported entity kinds to true, so DATE
detection is off by default at the public interface. -/
theorem all_presets_date_off_by_default :
    ALL_PRESETS.length = 3 ∧
    ∀ p ∈ ALL_PRESETS,
      recLookup "DATE" p.entities_enabled = some false ∧
      ∀ e ∈ nonDateEntities, recLookup e p.entities_enabled = some true := by
  refine ⟨rfl, ?_⟩
  decide

/-- Witness for C10 at a concrete preset and entity: the fast preset
disables DATE and enables PERSON. -/
theorem all_presets_date_off_by_default_witness :
    recLookup "DATE" PRESET_LAYER1_FAST.entities_enabled = some false ∧
    recLookup "PERSON" PRESET_LAYER1_FAST.entities_enabled = some true :=
  ⟨(all_presets_date_off_by_default.2 PRESET_LAYER1_FAST (by decide)).1,
    (all_presets_date_off_by_default.2 PRESET_LAYER1_FAST (by decide)).2
      "PERSON" (by decide)⟩

end Anonymizer
